import Mathlib

/-!
# Verification of the `iterutils` merge combinators

Shallow embedding of `src/lib.rs`: three lazy-sequence merge combinators.
Rust iterators are modelled as Lean lists holding the not-yet-consumed
elements (the claims are about finite sequences); `Iterator::next` on such a
sequence is "take the head".  Fallible internal operations (`unwrap`,
indexing) that can panic are modelled with an outer `Option`: a result of
`none` on `choose` means the Rust code would panic, `some (o, s')` means the
call returns `o` (the emitted element or the exhaustion signal `none`) and
leaves the combinator in state `s'`.
-/

universe u

variable {α : Type u}

/-! ## List helper lemmas -/

theorem get?_eraseIdx (l : List α) (i j : Nat) :
    (l.eraseIdx i).get? j = if j < i then l.get? j else l.get? (j + 1) := by
  induction l generalizing i j with
  | nil => simp [List.eraseIdx]
  | cons a t ih =>
    cases i with
    | zero => simp [List.eraseIdx]
    | succ i =>
      cases j with
      | zero => simp [List.eraseIdx]
      | succ j =>
        have hred : ((a :: t).eraseIdx (i + 1)).get? (j + 1)
            = (t.eraseIdx i).get? j := rfl
        rw [hred, ih]
        simp [Nat.succ_lt_succ_iff]

theorem perm_cons_eraseIdx {l : List α} {i : Nat} {a : α}
    (h : l.get? i = some a) : l.Perm (a :: l.eraseIdx i) := by
  induction l generalizing i with
  | nil => simp at h
  | cons b t ih =>
    cases i with
    | zero =>
      simp only [List.get?] at h
      cases h
      simp [List.eraseIdx]
    | succ i =>
      simp only [List.get?] at h
      have step := ih h
      have hred : (b :: t).eraseIdx (i + 1) = b :: t.eraseIdx i := rfl
      rw [hred]
      exact (step.cons b).trans (List.Perm.swap a b _)

theorem perm_cons_set {l : List α} {i : Nat} {a : α} (b : α)
    (h : l.get? i = some a) : (a :: l.set i b).Perm (b :: l) := by
  induction l generalizing i with
  | nil => simp at h
  | cons c t ih =>
    cases i with
    | zero =>
      simp only [List.get?] at h
      cases h
      simpa [List.set] using List.Perm.swap b a t
    | succ i =>
      simp only [List.get?] at h
      have step := ih h
      have hred : (c :: t).set (i + 1) b = c :: t.set i b := rfl
      rw [hred]
      exact ((List.Perm.swap c a _).trans ((step.cons c).trans
        (List.Perm.swap b c t)))

theorem flatten_eraseIdx {l : List (List α)} {i : Nat} {v : List α}
    (h : l.get? i = some v) :
    l.flatten.Perm (v ++ (l.eraseIdx i).flatten) := by
  induction l generalizing i with
  | nil => simp at h
  | cons a t ih =>
    cases i with
    | zero =>
      simp only [List.get?] at h
      cases h
      simp [List.eraseIdx]
    | succ i =>
      simp only [List.get?] at h
      have step := ih h
      have hred : ((a :: t).eraseIdx (i + 1)).flatten = a ++ (t.eraseIdx i).flatten := by
        rfl
      rw [hred]
      have h1 : (a :: t).flatten.Perm (a ++ (v ++ (t.eraseIdx i).flatten)) := by
        simpa using step.append_left a
      refine h1.trans ?_
      rw [← List.append_assoc, ← List.append_assoc]
      exact List.Perm.append_right _ List.perm_append_comm

theorem flatten_set {l : List (List α)} {i : Nat} {v : List α} (w : List α)
    (h : l.get? i = some v) :
    (l.set i w).flatten.Perm (w ++ (l.eraseIdx i).flatten) := by
  induction l generalizing i with
  | nil => simp at h
  | cons a t ih =>
    cases i with
    | zero =>
      simp only [List.get?] at h
      cases h
      simp [List.eraseIdx, List.set]
    | succ i =>
      simp only [List.get?] at h
      have step := ih h
      have hred : ((a :: t).set (i + 1) w).flatten = a ++ (t.set i w).flatten := rfl
      have hred2 : ((a :: t).eraseIdx (i + 1)).flatten = a ++ (t.eraseIdx i).flatten := by
        rfl
      rw [hred, hred2]
      have h1 : (a ++ (t.set i w).flatten).Perm (a ++ (w ++ (t.eraseIdx i).flatten)) :=
        step.append_left a
      refine h1.trans ?_
      rw [← List.append_assoc, ← List.append_assoc]
      exact List.Perm.append_right _ List.perm_append_comm

theorem get?_set_self {l : List α} {i : Nat} (a : α) (h : i < l.length) :
    (l.set i a).get? i = some a := by
  rw [List.get?_set_eq]
  cases hg : l.get? i with
  | none => exact absurd (List.get?_eq_none.mp hg) (Nat.not_le_of_lt h)
  | some b => rfl

/-! ## `SeqIter` (src/lib.rs 25-63)

`SeqIter` owns a list of iterators and a cursor `ptr`; `next` pulls from the
iterator at `ptr`, advancing `ptr` past exhausted iterators.  The recursive
Rust `next` is modelled with an explicit fuel `iters.length - ptr`, which
bounds the recursion depth exactly (each recursive call increments `ptr` and
is only made while `ptr` is in range). -/

structure SeqIter (α : Type u) where
  ptr : Nat
  iters : List (List α)

def SeqIter.new : SeqIter α := ⟨0, []⟩

def SeqIter.add (s : SeqIter α) (iter : List α) : SeqIter α :=
  { s with iters := s.iters ++ [iter] }

def SeqIter.nextFuel : Nat → SeqIter α → Option α × SeqIter α
  | 0, s => (none, s)
  | n + 1, s =>
    match s.iters.get? s.ptr with
    | none => (none, s)
    | some [] => SeqIter.nextFuel n { s with ptr := s.ptr + 1 }
    | some (x :: rest) => (some x, { s with iters := s.iters.set s.ptr rest })

def SeqIter.next (s : SeqIter α) : Option α × SeqIter α :=
  SeqIter.nextFuel (s.iters.length - s.ptr) s

/-- The elements still to be emitted: what remains of the iterators at and
after the cursor. -/
def SeqIter.remaining (s : SeqIter α) : List α :=
  (s.iters.drop s.ptr).flatten

def SeqIter.runFuel : Nat → SeqIter α → List α
  | 0, _ => []
  | n + 1, s =>
    match s.next with
    | (none, _) => []
    | (some x, s') => x :: SeqIter.runFuel n s'

/-- All elements produced by repeatedly calling `next` until exhaustion.
Each emitted element shrinks `remaining` by exactly one, so
`remaining.length` steps suffice. -/
def SeqIter.run (s : SeqIter α) : List α :=
  SeqIter.runFuel s.remaining.length s

def mkSeq (ls : List (List α)) : SeqIter α :=
  ls.foldl SeqIter.add SeqIter.new

/-- States reachable by any interleaving of `add` and `next`. -/
inductive SeqIter.Reachable : SeqIter α → Prop
  | new : SeqIter.Reachable SeqIter.new
  | add (s : SeqIter α) (l : List α) :
      SeqIter.Reachable s → SeqIter.Reachable (s.add l)
  | next (s : SeqIter α) :
      SeqIter.Reachable s → SeqIter.Reachable (s.next).2

theorem SeqIter.nextFuel_none {n : Nat} :
    ∀ s : SeqIter α, s.iters.length - s.ptr ≤ n → s.remaining = [] →
      (SeqIter.nextFuel n s).1 = none := by
  induction n with
  | zero => intro s _ _; rfl
  | succ n ih =>
    intro s hfuel hrem
    unfold SeqIter.nextFuel
    cases hget : s.iters.get? s.ptr with
    | none => rfl
    | some cur =>
      have hlt : s.ptr < s.iters.length := by
        by_contra hge
        rw [List.get?_eq_none.mpr (Nat.le_of_not_lt hge)] at hget
        exact Option.noConfusion hget
      have hdrop : s.iters.drop s.ptr = cur :: s.iters.drop (s.ptr + 1) := by
        have := List.drop_eq_get_cons (l := s.iters) hlt
        rw [this]
        congr 1
        exact Option.some.inj ((List.get?_eq_some.mpr ⟨hlt, rfl⟩).symm.trans hget)
      unfold SeqIter.remaining at hrem
      rw [hdrop] at hrem
      simp only [List.flatten] at hrem
      rcases List.append_eq_nil.mp hrem with ⟨hcur, hrest⟩
      subst hcur
      simp only
      exact ih _ (show s.iters.length - (s.ptr + 1) ≤ n by omega)
        (by simpa [SeqIter.remaining] using hrest)

theorem SeqIter.nextFuel_some {n : Nat} :
    ∀ (s : SeqIter α) (x : α) (tl : List α), s.iters.length - s.ptr ≤ n →
      s.remaining = x :: tl →
      ∃ s', SeqIter.nextFuel n s = (some x, s') ∧ s'.remaining = tl ∧
        s'.iters.length = s.iters.length ∧ s.ptr ≤ s'.ptr := by
  induction n with
  | zero =>
    intro s x tl hfuel hrem
    exfalso
    have : s.iters.drop s.ptr = [] :=
      List.drop_eq_nil_of_le (by omega)
    rw [SeqIter.remaining, this] at hrem
    simp at hrem
  | succ n ih =>
    intro s x tl hfuel hrem
    cases hget : s.iters.get? s.ptr with
    | none =>
      exfalso
      have hge := List.get?_eq_none.mp hget
      have : s.iters.drop s.ptr = [] := List.drop_eq_nil_of_le hge
      rw [SeqIter.remaining, this] at hrem
      simp at hrem
    | some cur =>
      have hlt : s.ptr < s.iters.length := by
        by_contra hge
        rw [List.get?_eq_none.mpr (Nat.le_of_not_lt hge)] at hget
        exact Option.noConfusion hget
      have hdrop : s.iters.drop s.ptr = cur :: s.iters.drop (s.ptr + 1) := by
        rw [List.drop_eq_get_cons (l := s.iters) hlt]
        congr 1
        exact Option.some.inj ((List.get?_eq_some.mpr ⟨hlt, rfl⟩).symm.trans hget)
      cases cur with
      | nil =>
        have hrem' : SeqIter.remaining { s with ptr := s.ptr + 1 } = x :: tl := by
          rw [SeqIter.remaining] at hrem ⊢
          rw [hdrop] at hrem
          simpa using hrem
        rcases ih { s with ptr := s.ptr + 1 } x tl
          (show s.iters.length - (s.ptr + 1) ≤ n by omega) hrem' with
          ⟨s', heq, hrem'', hlen, hptr⟩
        have hptr' : s.ptr ≤ s'.ptr := by
          have : s.ptr + 1 ≤ s'.ptr := hptr
          omega
        refine ⟨s', ?_, hrem'', hlen, hptr'⟩
        show SeqIter.nextFuel (n + 1) s = (some x, s')
        unfold SeqIter.nextFuel
        rw [hget]
        exact heq
      | cons y rest =>
        have hflat : s.remaining = y :: (rest ++ (s.iters.drop (s.ptr + 1)).flatten) := by
          rw [SeqIter.remaining, hdrop]
          simp
        rw [hflat] at hrem
        have hy : y = x := by injection hrem
        have htl : rest ++ (s.iters.drop (s.ptr + 1)).flatten = tl := by
          injection hrem
        refine ⟨{ s with iters := s.iters.set s.ptr rest }, ?_, ?_, by simp, le_refl _⟩
        · unfold SeqIter.nextFuel
          rw [hget, hy]
        · rw [SeqIter.remaining]
          simp only
          have hset : (s.iters.set s.ptr rest).drop s.ptr
              = rest :: s.iters.drop (s.ptr + 1) := by
            rw [List.drop_eq_get_cons (l := s.iters.set s.ptr rest)
              (by simpa using hlt)]
            have h1 : (s.iters.set s.ptr rest).get? s.ptr = some rest :=
              get?_set_self rest hlt
            have h2 : (s.iters.set s.ptr rest).get? s.ptr
                = some ((s.iters.set s.ptr rest).get ⟨s.ptr, by simpa using hlt⟩) :=
              List.get?_eq_some.mpr ⟨by simpa using hlt, rfl⟩
            have h3 := Option.some.inj (h2.symm.trans h1)
            rw [h3]
            congr 1
            rw [List.drop_set]
            simp
          rw [hset]
          simpa using htl

theorem SeqIter.next_none {s : SeqIter α} (h : s.remaining = []) :
    (s.next).1 = none :=
  SeqIter.nextFuel_none s (le_refl _) h

theorem SeqIter.next_some {s : SeqIter α} {x : α} {tl : List α}
    (h : s.remaining = x :: tl) :
    ∃ s', s.next = (some x, s') ∧ s'.remaining = tl ∧
      s'.iters.length = s.iters.length ∧ s.ptr ≤ s'.ptr :=
  SeqIter.nextFuel_some s x tl (le_refl _) h

theorem SeqIter.runFuel_eq {n : Nat} :
    ∀ s : SeqIter α, s.remaining.length ≤ n → SeqIter.runFuel n s = s.remaining := by
  induction n with
  | zero =>
    intro s h
    have : s.remaining = [] := List.eq_nil_of_length_eq_zero (Nat.le_zero.mp h)
    rw [this]
    rfl
  | succ n ih =>
    intro s h
    cases hrem : s.remaining with
    | nil =>
      unfold SeqIter.runFuel
      have hnone := SeqIter.next_none hrem
      cases hnext : s.next with
      | mk o s' =>
        rw [hnext] at hnone
        simp only at hnone
        subst hnone
        simp
    | cons x tl =>
      rcases SeqIter.next_some hrem with ⟨s', hnext, hrem', _, _⟩
      unfold SeqIter.runFuel
      rw [hnext]
      simp only
      rw [ih s' (by rw [hrem']; rw [hrem] at h; simp at h; omega), hrem']

/-- The output of `SeqIter.run` is exactly the remaining elements in order. -/
theorem SeqIter.run_eq_remaining (s : SeqIter α) : s.run = s.remaining :=
  SeqIter.runFuel_eq s (le_refl _)

theorem mkSeq_spec (ls : List (List α)) :
    (mkSeq ls : SeqIter α).ptr = 0 ∧ (mkSeq ls : SeqIter α).iters = ls := by
  have gen : ∀ (ls : List (List α)) (s : SeqIter α),
      (ls.foldl SeqIter.add s).ptr = s.ptr ∧
      (ls.foldl SeqIter.add s).iters = s.iters ++ ls := by
    intro ls
    induction ls with
    | nil => intro s; simp
    | cons l t ih =>
      intro s
      rcases ih (s.add l) with ⟨h1, h2⟩
      constructor
      · simpa [SeqIter.add] using h1
      · rw [List.foldl_cons, h2]
        simp [SeqIter.add]
  rcases gen ls SeqIter.new with ⟨h1, h2⟩
  exact ⟨h1, by simpa [SeqIter.new] using h2⟩

theorem SeqIter.nextFuel_ptr_le {n : Nat} :
    ∀ s : SeqIter α, s.ptr ≤ s.iters.length →
      (SeqIter.nextFuel n s).2.ptr ≤ (SeqIter.nextFuel n s).2.iters.length := by
  induction n with
  | zero => intro s h; exact h
  | succ n ih =>
    intro s h
    unfold SeqIter.nextFuel
    cases hget : s.iters.get? s.ptr with
    | none => exact h
    | some cur =>
      have hlt : s.ptr < s.iters.length := by
        by_contra hge
        rw [List.get?_eq_none.mpr (Nat.le_of_not_lt hge)] at hget
        exact Option.noConfusion hget
      cases cur with
      | nil => exact ih _ (by simpa using hlt)
      | cons y rest => simpa using h.trans (by simp)

theorem SeqIter.reachable_ptr_le {s : SeqIter α} (h : s.Reachable) :
    s.ptr ≤ s.iters.length := by
  induction h with
  | new => exact le_refl 0
  | add s l _ ih => simpa [SeqIter.add] using ih.trans (by simp)
  | next s _ ih => exact SeqIter.nextFuel_ptr_le s ih

/-! ## `MultiIterator` (src/lib.rs 116-189)

`MultiIterator` keeps one pulled-but-not-emitted head element per live
sequence (`head`), the corresponding rest of each sequence (`iters`), and the
caller-supplied selection function.  `add` (lines 137-144) pulls one element
to seed the head slot and silently drops already-empty sequences; `choose`
(lines 146-178) asks the selection function for an index, treats `None` or an
out-of-range index as end of iteration, and otherwise emits the chosen head,
either retiring the sequence (if its iterator is exhausted) or swapping the
freshly pulled element into the head slot.  `unwrap`s and the slice indexing
in the Rust code are modelled by the outer `Option` (`none` = panic). -/

structure MultiIterator (α : Type u) where
  head : List α
  iters : List (List α)
  choose_function : List α → Option Nat

def MultiIterator.new (f : List α → Option Nat) : MultiIterator α := ⟨[], [], f⟩

def MultiIterator.add (s : MultiIterator α) (iter : List α) : MultiIterator α :=
  match iter with
  | [] => s
  | h :: t => { s with head := s.head ++ [h], iters := s.iters ++ [t] }

def MultiIterator.choose (s : MultiIterator α) : Option (Option α × MultiIterator α) :=
  if s.head.length = 0 then some (none, s)
  else
    match s.choose_function s.head with
    | none => some (none, s)
    | some index =>
      if s.head.length - 1 < index then some (none, s)
      else
        match s.iters.get? index with
        | none => none
        | some tail =>
          match tail with
          | [] =>
            match s.head.get? index with
            | none => none
            | some removed =>
              some (some removed,
                { s with head := s.head.eraseIdx index,
                         iters := s.iters.eraseIdx index })
          | x :: t =>
            match s.head.get? index with
            | none => none
            | some old =>
              some (some old,
                { s with head := s.head.set index x, iters := s.iters.set index t })

/-- Number of elements still held by the combinator (head slots plus sequence
rests); each emitted element decreases it by exactly one. -/
def MultiIterator.totalSize (s : MultiIterator α) : Nat :=
  s.head.length + s.iters.flatten.length

def MultiIterator.runFuel : Nat → MultiIterator α → Option (List α)
  | 0, _ => some []
  | n + 1, s =>
    match s.choose with
    | none => none
    | some (none, _) => some []
    | some (some x, s') => (MultiIterator.runFuel n s').map (fun out => x :: out)

/-- All elements produced by repeatedly calling `next` (= `choose`) until it
reports exhaustion; `none` if some call would panic. -/
def MultiIterator.run (s : MultiIterator α) : Option (List α) :=
  MultiIterator.runFuel s.totalSize s

def mkMulti (f : List α → Option Nat) (ls : List (List α)) : MultiIterator α :=
  ls.foldl MultiIterator.add (MultiIterator.new f)

/-- States reachable by any interleaving of `add` and `next`. -/
inductive MultiIterator.Reachable : MultiIterator α → Prop
  | new (f : List α → Option Nat) : MultiIterator.Reachable (MultiIterator.new f)
  | add (s : MultiIterator α) (l : List α) :
      MultiIterator.Reachable s → MultiIterator.Reachable (s.add l)
  | step (s s' : MultiIterator α) (o : Option α) :
      MultiIterator.Reachable s → s.choose = some (o, s') →
      MultiIterator.Reachable s'

theorem MultiIterator.choose_exhaust_cases {s s' : MultiIterator α}
    (h : s.choose = some (none, s')) :
    s' = s ∧ (s.head = [] ∨ s.choose_function s.head = none ∨
      ∃ i, s.choose_function s.head = some i ∧ s.head.length ≤ i) := by
  unfold MultiIterator.choose at h
  split at h
  next h0 =>
    have hs : s = s' := by simpa using h
    exact ⟨hs.symm, Or.inl (List.eq_nil_of_length_eq_zero h0)⟩
  next h0 =>
    split at h
    next hf =>
      have hs : s = s' := by simpa using h
      exact ⟨hs.symm, Or.inr (Or.inl hf)⟩
    next index hf =>
      split at h
      next hrange =>
        have hs : s = s' := by simpa using h
        exact ⟨hs.symm, Or.inr (Or.inr ⟨index, hf, by omega⟩)⟩
      next hrange =>
        exfalso
        split at h
        next hit => simp at h
        next tail hit =>
          cases tail <;> dsimp only at h <;> (split at h <;> simp at h)

theorem MultiIterator.choose_emit_inv {s s' : MultiIterator α} {x : α}
    (h : s.choose = some (some x, s')) :
    ∃ index, s.choose_function s.head = some index ∧ index < s.head.length ∧
      s.head.get? index = some x ∧
      ((s.iters.get? index = some [] ∧
        s' = { s with head := s.head.eraseIdx index,
                      iters := s.iters.eraseIdx index }) ∨
       (∃ y t, s.iters.get? index = some (y :: t) ∧
        s' = { s with head := s.head.set index y, iters := s.iters.set index t })) := by
  unfold MultiIterator.choose at h
  split at h
  next h0 => simp at h
  next h0 =>
    split at h
    next hf => simp at h
    next index hf =>
      split at h
      next hrange => simp at h
      next hrange =>
        refine ⟨index, hf, by omega, ?_⟩
        split at h
        next hit => simp at h
        next tail hit =>
          cases tail with
          | nil =>
            dsimp only at h
            split at h
            next hh => simp at h
            next removed hh =>
              have hh' : s.head.get? index = some removed := hh
              have hx : removed = x ∧
                  ({ s with head := s.head.eraseIdx index,
                            iters := s.iters.eraseIdx index } : MultiIterator α) = s' := by
                simpa using h
              rcases hx with ⟨rfl, hs⟩
              exact ⟨hh', Or.inl ⟨hit, hs.symm⟩⟩
          | cons y t =>
            dsimp only at h
            split at h
            next hh => simp at h
            next old hh =>
              have hh' : s.head.get? index = some old := hh
              have hx : old = x ∧
                  ({ s with head := s.head.set index y,
                            iters := s.iters.set index t } : MultiIterator α) = s' := by
                simpa using h
              rcases hx with ⟨rfl, hs⟩
              exact ⟨hh', Or.inr ⟨y, t, hit, hs.symm⟩⟩

theorem MultiIterator.choose_no_panic {s : MultiIterator α}
    (hlen : s.head.length = s.iters.length) : s.choose ≠ none := by
  intro h
  unfold MultiIterator.choose at h
  split at h
  next h0 => simp at h
  next h0 =>
    split at h
    next hf => simp at h
    next index hf =>
      split at h
      next hrange => simp at h
      next hrange =>
        have hidx : index < s.head.length := by omega
        split at h
        next hit =>
          rw [List.get?_eq_none] at hit
          omega
        next tail hit =>
          cases tail with
          | nil =>
            dsimp only at h
            split at h
            next hh =>
              rw [List.get?_eq_none] at hh
              omega
            next removed hh => simp at h
          | cons y t =>
            dsimp only at h
            split at h
            next hh =>
              rw [List.get?_eq_none] at hh
              omega
            next old hh => simp at h

theorem MultiIterator.add_len {s : MultiIterator α} {l : List α}
    (h : s.head.length = s.iters.length) :
    (s.add l).head.length = (s.add l).iters.length := by
  cases l with
  | nil => exact h
  | cons hd t => simp [MultiIterator.add, h]

theorem MultiIterator.add_fun (s : MultiIterator α) (l : List α) :
    (s.add l).choose_function = s.choose_function := by
  cases l <;> rfl

theorem MultiIterator.choose_step_fun {s s' : MultiIterator α} {o : Option α}
    (h : s.choose = some (o, s')) : s'.choose_function = s.choose_function := by
  cases o with
  | none => rcases MultiIterator.choose_exhaust_cases h with ⟨rfl, _⟩; rfl
  | some x =>
    rcases MultiIterator.choose_emit_inv h with ⟨i, _, _, _, hcase⟩
    rcases hcase with ⟨_, rfl⟩ | ⟨y, t, _, rfl⟩ <;> rfl

theorem MultiIterator.choose_step_len {s s' : MultiIterator α} {o : Option α}
    (hlen : s.head.length = s.iters.length) (h : s.choose = some (o, s')) :
    s'.head.length = s'.iters.length := by
  cases o with
  | none => rcases MultiIterator.choose_exhaust_cases h with ⟨rfl, _⟩; exact hlen
  | some x =>
    rcases MultiIterator.choose_emit_inv h with ⟨i, _, hidx, _, hcase⟩
    have hidx2 : i < s.iters.length := hlen ▸ hidx
    rcases hcase with ⟨_, rfl⟩ | ⟨y, t, _, rfl⟩
    · simp [List.length_eraseIdx, hidx, hidx2, hlen]
    · simp [hlen]

theorem MultiIterator.reachable_len {s : MultiIterator α} (h : s.Reachable) :
    s.head.length = s.iters.length := by
  induction h with
  | new f => rfl
  | add s l _ ih => exact MultiIterator.add_len ih
  | step s s' o _ hc ih => exact MultiIterator.choose_step_len ih hc

theorem MultiIterator.emit_conserve {s s' : MultiIterator α} {x : α}
    (h : s.choose = some (some x, s')) :
    (x :: (s'.head ++ s'.iters.flatten)).Perm (s.head ++ s.iters.flatten) ∧
    s.totalSize = s'.totalSize + 1 := by
  rcases MultiIterator.choose_emit_inv h with ⟨i, _, hidx, hget, hcase⟩
  have hperm : (x :: (s'.head ++ s'.iters.flatten)).Perm (s.head ++ s.iters.flatten) := by
    rcases hcase with ⟨hit, rfl⟩ | ⟨y, t, hit, rfl⟩
    · have h1 := perm_cons_eraseIdx hget
      have h2 := flatten_eraseIdx hit
      have h3 : (s.head ++ s.iters.flatten).Perm
          ((x :: s.head.eraseIdx i) ++ (s.iters.eraseIdx i).flatten) := by
        have := h1.append h2
        simpa using this
      exact (by simpa using h3.symm)
    · have hxy : (x :: s.head.set i y).Perm (y :: s.head) := perm_cons_set y hget
      have hfs := flatten_set t hit
      have hf2 := flatten_eraseIdx hit
      have step1 : (x :: (s.head.set i y ++ (s.iters.set i t).flatten)).Perm
          ((y :: s.head) ++ (t ++ (s.iters.eraseIdx i).flatten)) := by
        have := hxy.append hfs
        simpa using this
      have step2 : (s.head ++ s.iters.flatten).Perm
          (s.head ++ (y :: (t ++ (s.iters.eraseIdx i).flatten))) := by
        have := hf2.append_left s.head
        simpa using this
      have step3 : (s.head ++ (y :: (t ++ (s.iters.eraseIdx i).flatten))).Perm
          (y :: (s.head ++ (t ++ (s.iters.eraseIdx i).flatten))) := List.perm_middle
      have step4 : ((y :: s.head) ++ (t ++ (s.iters.eraseIdx i).flatten))
          = y :: (s.head ++ (t ++ (s.iters.eraseIdx i).flatten)) := rfl
      exact step1.trans (step4 ▸ (step2.trans step3).symm)
  refine ⟨hperm, ?_⟩
  have hlen := hperm.length_eq
  simp only [List.length_cons, List.length_append] at hlen
  simp only [MultiIterator.totalSize]
  omega

/-- The selection function "always returns the index of the minimum current
head element". -/
def MinSel [LinearOrder α] (f : List α → Option Nat) : Prop :=
  ∀ l : List α, l ≠ [] → ∃ (i : Nat) (h : i < l.length),
    f l = some i ∧ ∀ y ∈ l, l.get ⟨i, h⟩ ≤ y

/-- Sortedness invariant for the predicate merge: every head slot is a lower
bound of the rest of its sequence, and every rest is itself sorted. -/
def MultiIterator.SortedInv [LinearOrder α] (s : MultiIterator α) : Prop :=
  ∀ i x, s.head.get? i = some x →
    ∃ t, s.iters.get? i = some t ∧ (∀ y ∈ t, x ≤ y) ∧ t.Pairwise (· ≤ ·)

theorem MultiIterator.choose_emit_min [LinearOrder α] {s s' : MultiIterator α} {x : α}
    (hf : MinSel s.choose_function) (h : s.choose = some (some x, s')) :
    ∀ y ∈ s.head, x ≤ y := by
  rcases MultiIterator.choose_emit_inv h with ⟨index, hfi, hidx, hget, _⟩
  have hne : s.head ≠ [] := by
    intro hnil
    rw [hnil] at hidx
    simp at hidx
  rcases hf s.head hne with ⟨i, hi, hfi', hmin⟩
  have hii : index = i := by
    have := hfi.symm.trans hfi'
    injection this
  subst hii
  have : s.head.get ⟨index, hi⟩ = x := by
    have h2 : s.head.get? index = some (s.head.get ⟨index, hi⟩) :=
      List.get?_eq_some.mpr ⟨hi, rfl⟩
    exact Option.some.inj (h2.symm.trans hget)
  rw [← this]
  exact hmin

theorem MultiIterator.emit_sorted [LinearOrder α] {s s' : MultiIterator α} {x : α}
    (hlen : s.head.length = s.iters.length)
    (hf : MinSel s.choose_function) (hInv : s.SortedInv)
    (h : s.choose = some (some x, s')) :
    s'.SortedInv ∧ (∀ y ∈ s'.head, x ≤ y) ∧
      (∀ y ∈ s'.head, ∃ z ∈ s.head, z ≤ y) := by
  have hmin := MultiIterator.choose_emit_min hf h
  rcases MultiIterator.choose_emit_inv h with ⟨i, hfi, hidx, hget, hcase⟩
  rcases hcase with ⟨hit, rfl⟩ | ⟨y0, t0, hit, rfl⟩
  · refine ⟨?_, ?_, ?_⟩
    · intro j z hj
      simp only at hj ⊢
      rw [get?_eraseIdx] at hj
      rw [get?_eraseIdx]
      by_cases hlt : j < i
      · rw [if_pos hlt] at hj
        rw [if_pos hlt]
        exact hInv j z hj
      · rw [if_neg hlt] at hj
        rw [if_neg hlt]
        exact hInv (j + 1) z hj
    · intro y hy
      simp only at hy
      have : y ∈ s.head := (perm_cons_eraseIdx hget).mem_iff.mpr (by simp [hy])
      exact hmin y this
    · intro y hy
      simp only at hy
      have : y ∈ s.head := (perm_cons_eraseIdx hget).mem_iff.mpr (by simp [hy])
      exact ⟨y, this, le_refl y⟩
  · have hidx2 : i < s.iters.length := hlen ▸ hidx
    have hbound : x ≤ y0 ∧ (∀ y ∈ t0, y0 ≤ y) ∧ t0.Pairwise (· ≤ ·) := by
      rcases hInv i x hget with ⟨t1, hit1, hle1, hpw1⟩
      have : t1 = y0 :: t0 := Option.some.inj (hit1.symm.trans hit)
      subst this
      rw [List.pairwise_cons] at hpw1
      exact ⟨hle1 y0 (by simp), hpw1.1, hpw1.2⟩
    refine ⟨?_, ?_, ?_⟩
    · intro j z hj
      simp only at hj ⊢
      by_cases hji : j = i
      · subst hji
        have : z = y0 := by
          have h2 := get?_set_self y0 hidx
          exact (Option.some.inj (hj.symm.trans h2))
        subst this
        exact ⟨t0, get?_set_self t0 hidx2, hbound.2.1, hbound.2.2⟩
      · rw [List.get?_set_ne _ _ (fun he => hji he.symm)] at hj
        rcases hInv j z hj with ⟨t1, hit1, hle1, hpw1⟩
        exact ⟨t1, by rw [List.get?_set_ne _ _ (fun he => hji he.symm)]; exact hit1,
          hle1, hpw1⟩
    · intro y hy
      simp only at hy
      have : y ∈ x :: s.head.set i y0 := by simp [hy]
      have hmem : y ∈ y0 :: s.head := (perm_cons_set y0 hget).mem_iff.mp this
      rcases List.mem_cons.mp hmem with rfl | hmem'
      · exact hbound.1
      · exact hmin y hmem'
    · intro y hy
      simp only at hy
      have : y ∈ x :: s.head.set i y0 := by simp [hy]
      have hmem : y ∈ y0 :: s.head := (perm_cons_set y0 hget).mem_iff.mp this
      rcases List.mem_cons.mp hmem with rfl | hmem'
      · exact ⟨x, List.get?_mem hget, hbound.1⟩
      · exact ⟨y, hmem', le_refl y⟩

theorem MultiIterator.run_spec [LinearOrder α] {n : Nat} :
    ∀ s : MultiIterator α, s.totalSize ≤ n →
      s.head.length = s.iters.length → MinSel s.choose_function →
      s.SortedInv →
      ∃ out, MultiIterator.runFuel n s = some out ∧
        out.Perm (s.head ++ s.iters.flatten) ∧ out.Pairwise (· ≤ ·) ∧
        (∀ y ∈ out, ∃ z ∈ s.head, z ≤ y) := by
  induction n with
  | zero =>
    intro s hsize hlen hf hInv
    have hhead : s.head = [] := by
      apply List.eq_nil_of_length_eq_zero
      simp only [MultiIterator.totalSize] at hsize
      omega
    have hiters : s.iters = [] := by
      apply List.eq_nil_of_length_eq_zero
      rw [← hlen, hhead]
      rfl
    exact ⟨[], rfl, by simp [hhead, hiters], by simp, by simp⟩
  | succ n ih =>
    intro s hsize hlen hf hInv
    cases hc : s.choose with
    | none => exact absurd hc (MultiIterator.choose_no_panic hlen)
    | some p =>
      rcases p with ⟨o, s'⟩
      cases o with
      | none =>
        rcases MultiIterator.choose_exhaust_cases hc with ⟨hss, hdisj⟩
        have hhead : s.head = [] := by
          rcases hdisj with hhead | hnone | ⟨i, hsome, hge⟩
          · exact hhead
          · by_contra hne
            rcases hf s.head hne with ⟨i, hi, hfi, _⟩
            rw [hfi] at hnone
            exact Option.noConfusion hnone
          · by_contra hne
            rcases hf s.head hne with ⟨j, hj, hfj, _⟩
            have : i = j := by
              have := hsome.symm.trans hfj
              injection this
            omega
        have hiters : s.iters = [] := by
          apply List.eq_nil_of_length_eq_zero
          rw [← hlen, hhead]
          rfl
        refine ⟨[], ?_, by simp [hhead, hiters], by simp, by simp⟩
        unfold MultiIterator.runFuel
        rw [hc]
      | some x =>
        rcases MultiIterator.emit_conserve hc with ⟨hperm, hsize'⟩
        rcases MultiIterator.emit_sorted hlen hf hInv hc with
          ⟨hInv', hxle, hdom⟩
        have hx_mem : x ∈ s.head := by
          rcases MultiIterator.choose_emit_inv hc with ⟨i, _, _, hget, _⟩
          exact List.get?_mem hget
        rcases ih s' (by omega) (MultiIterator.choose_step_len hlen hc)
          (by rw [MultiIterator.choose_step_fun hc]; exact hf) hInv' with
          ⟨out', hrun', hperm', hsorted', hdom'⟩
        refine ⟨x :: out', ?_, ?_, ?_, ?_⟩
        · unfold MultiIterator.runFuel
          rw [hc]
          dsimp only
          rw [hrun']
          rfl
        · exact ((hperm'.cons x).trans hperm)
        · rw [List.pairwise_cons]
          refine ⟨?_, hsorted'⟩
          intro y hy
          rcases hdom' y hy with ⟨z, hz, hzy⟩
          exact le_trans (hxle z hz) hzy
        · intro y hy
          rcases List.mem_cons.mp hy with rfl | hy'
          · exact ⟨y, hx_mem, le_refl y⟩
          · rcases hdom' y hy' with ⟨z, hz, hzy⟩
            rcases hdom z hz with ⟨w, hw, hwz⟩
            exact ⟨w, hw, le_trans hwz hzy⟩

theorem mkMulti_reachable (f : List α → Option Nat) (ls : List (List α)) :
    (mkMulti f ls).Reachable := by
  have gen : ∀ (ls : List (List α)) (s : MultiIterator α), s.Reachable →
      (ls.foldl MultiIterator.add s).Reachable := by
    intro ls
    induction ls with
    | nil => intro s hs; exact hs
    | cons l t ih => intro s hs; exact ih (s.add l) (MultiIterator.Reachable.add s l hs)
  exact gen ls _ (MultiIterator.Reachable.new f)

theorem mkMulti_fun (f : List α → Option Nat) (ls : List (List α)) :
    (mkMulti f ls).choose_function = f := by
  have gen : ∀ (ls : List (List α)) (s : MultiIterator α),
      (ls.foldl MultiIterator.add s).choose_function = s.choose_function := by
    intro ls
    induction ls with
    | nil => intro s; rfl
    | cons l t ih => intro s; rw [List.foldl_cons, ih, MultiIterator.add_fun]
  exact gen ls _

theorem MultiIterator.contents_add (s : MultiIterator α) (l : List α) :
    ((s.add l).head ++ (s.add l).iters.flatten).Perm
      ((s.head ++ s.iters.flatten) ++ l) := by
  cases l with
  | nil => simp [MultiIterator.add]
  | cons hd t =>
    have e1 : ((s.add (hd :: t)).head ++ (s.add (hd :: t)).iters.flatten)
        = s.head ++ (hd :: (s.iters.flatten ++ t)) := by
      simp [MultiIterator.add, List.flatten_append]
    have e2 : ((s.head ++ s.iters.flatten) ++ (hd :: t))
        = s.head ++ (s.iters.flatten ++ (hd :: t)) := by simp
    rw [e1, e2]
    exact List.Perm.append_left s.head List.perm_middle.symm

theorem mkMulti_contents (f : List α → Option Nat) (ls : List (List α)) :
    ((mkMulti f ls).head ++ (mkMulti f ls).iters.flatten).Perm ls.flatten := by
  have gen : ∀ (ls : List (List α)) (s : MultiIterator α),
      ((ls.foldl MultiIterator.add s).head ++
        (ls.foldl MultiIterator.add s).iters.flatten).Perm
        ((s.head ++ s.iters.flatten) ++ ls.flatten) := by
    intro ls
    induction ls with
    | nil => intro s; simp
    | cons l t ih =>
      intro s
      rw [List.foldl_cons]
      refine (ih (s.add l)).trans ?_
      have h1 := (MultiIterator.contents_add s l).append_right t.flatten
      refine h1.trans ?_
      simp [List.append_assoc]
  have := gen ls (MultiIterator.new f)
  simpa [MultiIterator.new] using this

theorem MultiIterator.sortedInv_add [LinearOrder α] {s : MultiIterator α} {l : List α}
    (hlen : s.head.length = s.iters.length)
    (hInv : s.SortedInv) (hl : l.Pairwise (· ≤ ·)) : (s.add l).SortedInv := by
  cases l with
  | nil => exact hInv
  | cons hd t =>
    intro j x hj
    simp only [MultiIterator.add] at hj ⊢
    by_cases hlt : j < s.head.length
    · rw [List.get?_append hlt] at hj
      rcases hInv j x hj with ⟨t0, hit, hle, hpw⟩
      exact ⟨t0, by rw [List.get?_append (hlen ▸ hlt)]; exact hit, hle, hpw⟩
    · have hj' : j = s.head.length := by
        rcases List.get?_eq_some.mp hj with ⟨hh, _⟩
        simp only [List.length_append, List.length_cons, List.length_nil] at hh
        omega
      subst hj'
      have hx : x = hd := by
        have := List.get?_concat_length s.head hd
        exact Option.some.inj (hj.symm.trans this)
      subst hx
      rw [List.pairwise_cons] at hl
      refine ⟨t, ?_, hl.1, hl.2⟩
      rw [hlen]
      exact List.get?_concat_length s.iters t

theorem mkMulti_SortedInv [LinearOrder α] (f : List α → Option Nat)
    (ls : List (List α)) (hs : ∀ l ∈ ls, l.Pairwise (· ≤ ·)) :
    (mkMulti f ls).SortedInv := by
  have gen : ∀ (ls : List (List α)) (s : MultiIterator α),
      s.head.length = s.iters.length → s.SortedInv →
      (∀ l ∈ ls, l.Pairwise (· ≤ ·)) →
      (ls.foldl MultiIterator.add s).SortedInv := by
    intro ls
    induction ls with
    | nil => intro s _ hInv _; exact hInv
    | cons l t ih =>
      intro s hlen hInv hsort
      rw [List.foldl_cons]
      exact ih (s.add l) (MultiIterator.add_len hlen)
        (MultiIterator.sortedInv_add hlen hInv (hsort l (by simp)))
        (fun l' hl' => hsort l' (by simp [hl']))
  refine gen ls (MultiIterator.new f) rfl ?_ hs
  intro i x hx
  simp [MultiIterator.new] at hx

/-- The "index of the first minimum" selection function used as a concrete
witness of `MinSel` (the choose function of the library's own example and
test, src/lib.rs 96-102 and 368-374). -/
def minIdx [LinearOrder α] : List α → Option Nat
  | [] => none
  | x :: xs =>
    match minIdx xs with
    | none => some 0
    | some j =>
      match xs.get? j with
      | none => some 0
      | some m => if m < x then some (j + 1) else some 0

theorem minIdx_minSel [LinearOrder α] : MinSel (fun l : List α => minIdx l) := by
  intro l
  induction l with
  | nil => intro h; exact absurd rfl h
  | cons x xs ih =>
    intro _
    cases xs with
    | nil =>
      refine ⟨0, by simp, rfl, ?_⟩
      intro y hy
      rcases List.mem_singleton.mp hy with rfl
      exact le_refl _
    | cons b bs =>
      rcases ih (by simp) with ⟨j, hj, hmin, hle⟩
      have hget : (b :: bs).get? j = some ((b :: bs).get ⟨j, hj⟩) :=
        List.get?_eq_some.mpr ⟨hj, rfl⟩
      simp only at hmin
      by_cases hlt : (b :: bs).get ⟨j, hj⟩ < x
      · refine ⟨j + 1, by simpa using Nat.succ_lt_succ hj, ?_, ?_⟩
        · show minIdx (x :: b :: bs) = some (j + 1)
          unfold minIdx
          rw [hmin]
          dsimp only
          rw [hget]
          dsimp only
          rw [if_pos hlt]
        · intro y hy
          have hgety : (x :: b :: bs).get ⟨j + 1, by simpa using Nat.succ_lt_succ hj⟩
              = (b :: bs).get ⟨j, hj⟩ := rfl
          rw [hgety]
          rcases List.mem_cons.mp hy with rfl | hy'
          · exact le_of_lt hlt
          · exact hle y hy'
      · refine ⟨0, by simp, ?_, ?_⟩
        · show minIdx (x :: b :: bs) = some 0
          unfold minIdx
          rw [hmin]
          dsimp only
          rw [hget]
          dsimp only
          rw [if_neg hlt]
        · intro y hy
          have hgety : (x :: b :: bs).get ⟨0, by simp⟩ = x := rfl
          rw [hgety]
          rcases List.mem_cons.mp hy with rfl | hy'
          · exact le_refl y
          · exact le_trans (not_lt.mp hlt) (hle y hy')

/-! ## `OrderedIterator` (src/lib.rs 192-335)

The Rust combinator keeps a `BinaryHeap<HeapItem<T>>` of one entry per live
sequence: the entry holds the sequence's current head element (`what`), the
sequence's slot in `iters` (`iter_index`), and the direction comparator.
`new_min` stores the comparator `|x, y| y.cmp(x)` and `new_max` stores
`|x, y| x.cmp(y)` (src/lib.rs 268-289); both in the state and in every
`HeapItem` the comparator is always one of these two closures, so the
embedding stores the direction tag once and derives the comparator from it.
`BinaryHeap` is a max-heap for the item order; it is modelled as a list of
entries whose `pop` extracts a maximal entry for the comparator (which entry
is taken among equal ones is unspecified in the heap's contract, and no claim
depends on it). -/

inductive MergeDir : Type
  | min : MergeDir
  | max : MergeDir

/-- The comparator installed by `new_min` / `new_max` (src/lib.rs 269-271 and
281-283). -/
def dirCmp [LinearOrder α] : MergeDir → α → α → Ordering
  | MergeDir.min, x, y => compare y x
  | MergeDir.max, x, y => compare x y

/-- The emission order the comparator realises: `≤` in min mode (ascending
output), `≥` in max mode (descending output). -/
def dirLe [LinearOrder α] : MergeDir → α → α → Prop
  | MergeDir.min, x, y => x ≤ y
  | MergeDir.max, x, y => y ≤ x

theorem dirCmp_lt_iff [LinearOrder α] (d : MergeDir) (x y : α) :
    dirCmp d x y = Ordering.lt ↔ ¬ dirLe d x y := by
  cases d <;> simp [dirCmp, dirLe, compare_lt_iff_lt, not_le]

theorem dirCmp_ne_lt_iff [LinearOrder α] (d : MergeDir) (x y : α) :
    dirCmp d x y ≠ Ordering.lt ↔ dirLe d x y := by
  rw [Ne, dirCmp_lt_iff, not_not]

theorem dirLe_refl [LinearOrder α] (d : MergeDir) (x : α) : dirLe d x x := by
  cases d <;> simp [dirLe]

theorem dirLe_trans [LinearOrder α] {d : MergeDir} {x y z : α}
    (h1 : dirLe d x y) (h2 : dirLe d y z) : dirLe d x z := by
  cases d
  · exact le_trans h1 h2
  · exact le_trans h2 h1

theorem dirLe_total [LinearOrder α] (d : MergeDir) (x y : α) :
    dirLe d x y ∨ dirLe d y x := by
  cases d
  · exact le_total x y
  · exact le_total y x

structure HeapItem (α : Type u) where
  what : α
  iter_index : Nat

/-- Model of `BinaryHeap::pop` for the comparator order: extract a maximal
entry and return it together with the remaining entries. -/
def popBest (cmp : α → α → Ordering) :
    List (HeapItem α) → Option (HeapItem α × List (HeapItem α))
  | [] => none
  | x :: xs =>
    match popBest cmp xs with
    | none => some (x, [])
    | some (b, rest) =>
      if cmp x.what b.what = Ordering.lt then some (b, x :: rest) else some (x, xs)

theorem popBest_nil (cmp : α → α → Ordering) : popBest cmp ([] : List (HeapItem α)) = none :=
  rfl

theorem popBest_cons_ne_none (cmp : α → α → Ordering) (x : HeapItem α)
    (xs : List (HeapItem α)) : popBest cmp (x :: xs) ≠ none := by
  unfold popBest
  cases hp : popBest cmp xs with
  | none => simp
  | some p =>
    rcases p with ⟨b, rest⟩
    dsimp only
    split <;> simp

theorem popBest_perm {cmp : α → α → Ordering} {l : List (HeapItem α)}
    {b : HeapItem α} {rest : List (HeapItem α)}
    (h : popBest cmp l = some (b, rest)) : l.Perm (b :: rest) := by
  induction l generalizing b rest with
  | nil => simp [popBest] at h
  | cons x xs ih =>
    unfold popBest at h
    cases hp : popBest cmp xs with
    | none =>
      rw [hp] at h
      obtain ⟨rfl, rfl⟩ : x = b ∧ ([] : List (HeapItem α)) = rest := by
        simpa using h
      have hxs : xs = [] := by
        cases xs with
        | nil => rfl
        | cons y ys => exact absurd hp (popBest_cons_ne_none cmp y ys)
      rw [hxs]
    | some p =>
      rcases p with ⟨b', rest'⟩
      rw [hp] at h
      dsimp only at h
      split at h
      · obtain ⟨rfl, rfl⟩ : b' = b ∧ x :: rest' = rest := by simpa using h
        exact ((ih hp).cons x).trans (List.Perm.swap b' x rest')
      · obtain ⟨rfl, rfl⟩ : x = b ∧ xs = rest := by simpa using h
        exact List.Perm.refl _

theorem popBest_best [LinearOrder α] {d : MergeDir} {l : List (HeapItem α)}
    {b : HeapItem α} {rest : List (HeapItem α)}
    (h : popBest (dirCmp d) l = some (b, rest)) :
    ∀ it ∈ rest, dirLe d b.what it.what := by
  induction l generalizing b rest with
  | nil => simp [popBest] at h
  | cons x xs ih =>
    unfold popBest at h
    cases hp : popBest (dirCmp d) xs with
    | none =>
      rw [hp] at h
      obtain ⟨rfl, rfl⟩ : x = b ∧ ([] : List (HeapItem α)) = rest := by
        simpa using h
      intro it hit
      simp at hit
    | some p =>
      rcases p with ⟨b', rest'⟩
      rw [hp] at h
      dsimp only at h
      split at h
      next hlt =>
        obtain ⟨rfl, rfl⟩ : b' = b ∧ x :: rest' = rest := by simpa using h
        intro it hit
        rcases List.mem_cons.mp hit with rfl | hit'
        · exact (dirLe_total d b'.what it.what).resolve_right
            (by simpa using (dirCmp_lt_iff d it.what b'.what).mp hlt)
        · exact ih hp it hit'
      next hlt =>
        obtain ⟨rfl, rfl⟩ : x = b ∧ xs = rest := by simpa using h
        intro it hit
        have hxb : dirLe d x.what b'.what := (dirCmp_ne_lt_iff d _ _).mp hlt
        have hmem : it ∈ b' :: rest' := (popBest_perm hp).mem_iff.mp hit
        rcases List.mem_cons.mp hmem with rfl | hit'
        · exact hxb
        · exact dirLe_trans hxb (ih hp it hit')

structure OrderedIterator (α : Type u) where
  dir : MergeDir
  head : List (HeapItem α)
  iters : List (List α)

def OrderedIterator.new (d : MergeDir) : OrderedIterator α := ⟨d, [], []⟩

/-- `new_min` (src/lib.rs 268-277): ascending iteration. -/
def OrderedIterator.new_min : OrderedIterator α := OrderedIterator.new MergeDir.min

/-- `new_max` (src/lib.rs 280-289): descending iteration. -/
def OrderedIterator.new_max : OrderedIterator α := OrderedIterator.new MergeDir.max

/-- `add` (src/lib.rs 295-308): pull a seed element; when present, wrap it
with slot index `self.iters.len()` and push it into the heap; an already
empty sequence is never tracked. -/
def OrderedIterator.add (s : OrderedIterator α) (iter : List α) : OrderedIterator α :=
  match iter with
  | [] => s
  | h :: t =>
    { s with head := s.head ++ [⟨h, s.iters.length⟩], iters := s.iters ++ [t] }

/-- `choose` (src/lib.rs 310-334): pop the best heap entry, pull the next
element from its owning sequence (re-inserting a fresh entry when one is
present), and emit the popped element.  The `unwrap` on
`self.iters.get_mut(chosen_index)` is the panic case (outer `none`). -/
def OrderedIterator.choose [LinearOrder α] (s : OrderedIterator α) :
    Option (Option α × OrderedIterator α) :=
  if s.head.length = 0 then some (none, s)
  else
    match popBest (dirCmp s.dir) s.head with
    | none => some (none, s)
    | some (chosen, rest) =>
      match s.iters.get? chosen.iter_index with
      | none => none
      | some tail =>
        match tail with
        | [] => some (some chosen.what, { s with head := rest })
        | x :: t =>
          some (some chosen.what,
            { s with head := rest ++ [⟨x, chosen.iter_index⟩],
                     iters := s.iters.set chosen.iter_index t })

def OrderedIterator.totalSize (s : OrderedIterator α) : Nat :=
  s.head.length + s.iters.flatten.length

def OrderedIterator.runFuel [LinearOrder α] : Nat → OrderedIterator α → Option (List α)
  | 0, _ => some []
  | n + 1, s =>
    match s.choose with
    | none => none
    | some (none, _) => some []
    | some (some x, s') => (OrderedIterator.runFuel n s').map (fun out => x :: out)

/-- All elements produced by repeatedly calling `next` (= `choose`) until it
reports exhaustion; `none` if some call would panic. -/
def OrderedIterator.run [LinearOrder α] (s : OrderedIterator α) : Option (List α) :=
  OrderedIterator.runFuel s.totalSize s

def mkOrdered (d : MergeDir) (ls : List (List α)) : OrderedIterator α :=
  ls.foldl OrderedIterator.add (OrderedIterator.new d)

/-- States reachable by any interleaving of `add` and `next`. -/
inductive OrderedIterator.Reachable [LinearOrder α] : OrderedIterator α → Prop
  | new (d : MergeDir) : OrderedIterator.Reachable (OrderedIterator.new d)
  | add (s : OrderedIterator α) (l : List α) :
      OrderedIterator.Reachable s → OrderedIterator.Reachable (s.add l)
  | step (s s' : OrderedIterator α) (o : Option α) :
      OrderedIterator.Reachable s → s.choose = some (o, s') →
      OrderedIterator.Reachable s'

/-- Heap invariant of the ordered merge: every entry points at a valid slot,
no two entries share a slot (exactly one entry per live sequence), and a slot
with no entry has an exhausted sequence (so the heap covers every live
sequence; the entry's element IS the sequence's head slot by construction,
there is no other place it is stored). -/
def OrderedIterator.WF (s : OrderedIterator α) : Prop :=
  (∀ it ∈ s.head, it.iter_index < s.iters.length) ∧
  (s.head.map HeapItem.iter_index).Nodup ∧
  (∀ i : Nat, (∀ it ∈ s.head, it.iter_index ≠ i) → s.iters.getD i [] = [])

theorem OrderedIterator.choose_none_cases [LinearOrder α] {s s' : OrderedIterator α}
    (h : s.choose = some (none, s')) : s' = s ∧ s.head = [] := by
  unfold OrderedIterator.choose at h
  split at h
  next h0 =>
    have hs : s = s' := by simpa using h
    exact ⟨hs.symm, List.eq_nil_of_length_eq_zero h0⟩
  next h0 =>
    split at h
    next hp =>
      exfalso
      cases hhead : s.head with
      | nil => rw [hhead] at h0; exact h0 rfl
      | cons y ys => rw [hhead] at hp; exact popBest_cons_ne_none _ y ys hp
    next chosen rest hp =>
      exfalso
      split at h
      next hit => simp at h
      next tail hit =>
        cases tail <;> dsimp only at h <;> simp at h

theorem OrderedIterator.choose_emit_cases [LinearOrder α] {s s' : OrderedIterator α}
    {x : α} (h : s.choose = some (some x, s')) :
    ∃ chosen rest, popBest (dirCmp s.dir) s.head = some (chosen, rest) ∧
      chosen.what = x ∧
      ((s.iters.get? chosen.iter_index = some [] ∧ s' = { s with head := rest }) ∨
       (∃ y t, s.iters.get? chosen.iter_index = some (y :: t) ∧
        s' = { s with head := rest ++ [⟨y, chosen.iter_index⟩],
                      iters := s.iters.set chosen.iter_index t })) := by
  unfold OrderedIterator.choose at h
  split at h
  next h0 => simp at h
  next h0 =>
    split at h
    next hp => simp at h
    next chosen rest hp =>
      refine ⟨chosen, rest, hp, ?_⟩
      split at h
      next hit => simp at h
      next tail hit =>
        cases tail with
        | nil =>
          dsimp only at h
          obtain ⟨rfl, hs⟩ : chosen.what = x ∧
              ({ s with head := rest } : OrderedIterator α) = s' := by simpa using h
          exact ⟨rfl, Or.inl ⟨hit, hs.symm⟩⟩
        | cons y t =>
          dsimp only at h
          obtain ⟨rfl, hs⟩ : chosen.what = x ∧
              ({ s with head := rest ++ [⟨y, chosen.iter_index⟩],
                        iters := s.iters.set chosen.iter_index t } :
                OrderedIterator α) = s' := by simpa using h
          exact ⟨rfl, Or.inr ⟨y, t, hit, hs.symm⟩⟩

theorem OrderedIterator.choose_ne_none [LinearOrder α] {s : OrderedIterator α}
    (hvalid : ∀ it ∈ s.head, it.iter_index < s.iters.length) : s.choose ≠ none := by
  intro h
  unfold OrderedIterator.choose at h
  split at h
  next h0 => simp at h
  next h0 =>
    split at h
    next hp => simp at h
    next chosen rest hp =>
      split at h
      next hit =>
        have hchosen : chosen ∈ s.head := (popBest_perm hp).mem_iff.mpr (by simp)
        have := hvalid chosen hchosen
        rw [List.get?_eq_none] at hit
        omega
      next tail hit =>
        cases tail <;> dsimp only at h <;> simp at h

theorem OrderedIterator.add_WF {s : OrderedIterator α} {l : List α} (hWF : s.WF) :
    (s.add l).WF := by
  rcases hWF with ⟨hvalid, hnodup, horphan⟩
  cases l with
  | nil => exact ⟨hvalid, hnodup, horphan⟩
  | cons hd t =>
    refine ⟨?_, ?_, ?_⟩
    · intro it hit
      simp only [OrderedIterator.add] at hit ⊢
      rw [List.mem_append] at hit
      rcases hit with hit | hit
      · have := hvalid it hit
        simp only [List.length_append, List.length_cons, List.length_nil]
        omega
      · simp only [List.mem_singleton] at hit
        subst hit
        simp
    · simp only [OrderedIterator.add, List.map_append, List.map_cons, List.map_nil]
      refine List.nodup_append.mpr ⟨hnodup, by simp, ?_⟩
      intro a ha hb
      simp only [List.mem_singleton] at hb
      subst hb
      rcases List.mem_map.mp ha with ⟨it, hit, hidx⟩
      have := hvalid it hit
      omega
    · intro i hno
      simp only [OrderedIterator.add] at hno ⊢
      have hniters : i ≠ s.iters.length := by
        intro he
        exact hno ⟨hd, s.iters.length⟩ (by simp) (by simp [he])
      have hno' : ∀ it ∈ s.head, it.iter_index ≠ i := fun it hit =>
        hno it (by simp [hit])
      have hold := horphan i hno'
      by_cases hlt : i < s.iters.length
      · rw [List.getD_eq_get?, List.get?_append hlt, ← List.getD_eq_get?]
        exact hold
      · rw [List.getD_eq_get?]
        have hnone : (s.iters ++ [t]).get? i = none := by
          rw [List.get?_eq_none]
          simp only [List.length_append, List.length_cons, List.length_nil]
          omega
        rw [hnone]
        rfl

theorem OrderedIterator.choose_step_WF [LinearOrder α] {s s' : OrderedIterator α}
    {o : Option α} (hWF : s.WF) (h : s.choose = some (o, s')) : s'.WF := by
  cases o with
  | none =>
    rcases OrderedIterator.choose_none_cases h with ⟨hss, _⟩
    rw [hss]
    exact hWF
  | some x =>
    rcases OrderedIterator.choose_emit_cases h with ⟨chosen, rest, hp, hwhat, hcase⟩
    have hperm := popBest_perm hp
    rcases hWF with ⟨hvalid, hnodup, horphan⟩
    have hrest_sub : ∀ it ∈ rest, it ∈ s.head := fun it hit =>
      hperm.mem_iff.mpr (by simp [hit])
    have hchosen_mem : chosen ∈ s.head := hperm.mem_iff.mpr (by simp)
    have hmapnodup : (chosen.iter_index :: rest.map HeapItem.iter_index).Nodup := by
      have hm := hperm.map HeapItem.iter_index
      simpa using hm.nodup hnodup
    rcases hcase with ⟨hit, rfl⟩ | ⟨y, t, hit, rfl⟩
    · refine ⟨?_, ?_, ?_⟩
      · intro it hit'
        exact hvalid it (hrest_sub it hit')
      · exact (List.nodup_cons.mp hmapnodup).2
      · intro i hno
        by_cases hci : chosen.iter_index = i
        · subst hci
          rw [List.getD_eq_get?, hit]
          rfl
        · refine horphan i ?_
          intro it hit'
          rcases List.mem_cons.mp (hperm.mem_iff.mp hit') with rfl | hmem
          · exact hci
          · exact hno it hmem
    · have hidx : chosen.iter_index < s.iters.length := hvalid chosen hchosen_mem
      refine ⟨?_, ?_, ?_⟩
      · intro it hit'
        simp only [List.length_set]
        simp only [List.mem_append] at hit'
        rcases hit' with h1 | h1
        · exact hvalid it (hrest_sub it h1)
        · simp only [List.mem_singleton] at h1
          subst h1
          exact hidx
      · simp only [List.map_append, List.map_cons, List.map_nil]
        refine List.nodup_append.mpr ⟨(List.nodup_cons.mp hmapnodup).2, by simp, ?_⟩
        intro a ha hb
        simp only [List.mem_singleton] at hb
        subst hb
        exact (List.nodup_cons.mp hmapnodup).1 (by simpa using ha)
      · intro i hno
        have hci : chosen.iter_index ≠ i := by
          intro he
          exact hno ⟨y, chosen.iter_index⟩ (by simp) (by simpa using he)
        have hno' : ∀ it ∈ s.head, it.iter_index ≠ i := by
          intro it hit'
          rcases List.mem_cons.mp (hperm.mem_iff.mp hit') with rfl | hmem
          · exact hci
          · exact hno it (by simp [hmem])
        have hold := horphan i hno'
        rw [List.getD_eq_get?, List.get?_set_ne _ _ hci, ← List.getD_eq_get?]
        exact hold

theorem OrderedIterator.reachable_WF [LinearOrder α] {s : OrderedIterator α}
    (h : s.Reachable) : s.WF := by
  induction h with
  | new d =>
    refine ⟨?_, ?_, ?_⟩
    · intro it hit
      simp [OrderedIterator.new] at hit
    · simp [OrderedIterator.new]
    · intro i _
      rfl
  | add s l _ ih => exact OrderedIterator.add_WF ih
  | step s s' o _ hc ih => exact OrderedIterator.choose_step_WF ih hc

theorem OrderedIterator.choose_emit_conserve [LinearOrder α] {s s' : OrderedIterator α}
    {x : α} (h : s.choose = some (some x, s')) :
    (x :: (s'.head.map HeapItem.what ++ s'.iters.flatten)).Perm
      (s.head.map HeapItem.what ++ s.iters.flatten) ∧
    s.totalSize = s'.totalSize + 1 ∧ s'.dir = s.dir := by
  rcases OrderedIterator.choose_emit_cases h with ⟨chosen, rest, hp, hwhat, hcase⟩
  have hmap : (s.head.map HeapItem.what).Perm (x :: rest.map HeapItem.what) := by
    have hm := (popBest_perm hp).map HeapItem.what
    simpa [hwhat] using hm
  have hperm : (x :: (s'.head.map HeapItem.what ++ s'.iters.flatten)).Perm
      (s.head.map HeapItem.what ++ s.iters.flatten) := by
    rcases hcase with ⟨hit, rfl⟩ | ⟨y, t, hit, rfl⟩
    · have h1 := hmap.append_right s.iters.flatten
      exact (by simpa using h1.symm)
    · have hfs := flatten_set t hit
      have hf2 := flatten_eraseIdx hit
      have step1 : (x :: ((rest.map HeapItem.what ++ [y]) ++
          (s.iters.set chosen.iter_index t).flatten)).Perm
          (x :: ((rest.map HeapItem.what ++ [y]) ++
            (t ++ (s.iters.eraseIdx chosen.iter_index).flatten))) :=
        (((List.Perm.refl _).append hfs).cons x)
      have e1 : (x :: ((rest.map HeapItem.what ++ [y]) ++
          (t ++ (s.iters.eraseIdx chosen.iter_index).flatten)))
          = x :: (rest.map HeapItem.what ++
            (y :: (t ++ (s.iters.eraseIdx chosen.iter_index).flatten))) := by
        simp
      have step2 : (s.head.map HeapItem.what ++ s.iters.flatten).Perm
          ((x :: rest.map HeapItem.what) ++
            ((y :: t) ++ (s.iters.eraseIdx chosen.iter_index).flatten)) :=
        hmap.append hf2
      have e2 : ((x :: rest.map HeapItem.what) ++
          ((y :: t) ++ (s.iters.eraseIdx chosen.iter_index).flatten))
          = x :: (rest.map HeapItem.what ++
            (y :: (t ++ (s.iters.eraseIdx chosen.iter_index).flatten))) := by
        simp
      refine List.Perm.trans ?_ (e2 ▸ step2).symm
      rw [← e1]
      simpa using step1
  refine ⟨hperm, ?_, ?_⟩
  · have hlen := hperm.length_eq
    simp only [List.length_cons, List.length_append, List.length_map] at hlen
    simp only [OrderedIterator.totalSize]
    omega
  · rcases hcase with ⟨_, rfl⟩ | ⟨y, t, _, rfl⟩ <;> rfl

/-- Sortedness invariant of the ordered merge: each heap entry's element is a
lower bound (in the direction order) of the rest of its sequence, and each
rest is itself sorted in the direction order. -/
def OrderedIterator.SortedInv [LinearOrder α] (s : OrderedIterator α) : Prop :=
  ∀ it ∈ s.head,
    (∀ y ∈ s.iters.getD it.iter_index [], dirLe s.dir it.what y) ∧
    (s.iters.getD it.iter_index []).Pairwise (dirLe s.dir)

theorem OrderedIterator.choose_emit_sorted [LinearOrder α] {s s' : OrderedIterator α}
    {x : α} (hWF : s.WF) (hInv : s.SortedInv) (h : s.choose = some (some x, s')) :
    s'.SortedInv ∧ (∀ it ∈ s'.head, dirLe s.dir x it.what) ∧
      (∀ it ∈ s'.head, ∃ it0 ∈ s.head, dirLe s.dir it0.what it.what) := by
  rcases OrderedIterator.choose_emit_cases h with ⟨chosen, rest, hp, hwhat, hcase⟩
  have hperm := popBest_perm hp
  have hbest := popBest_best hp
  have hchosen_mem : chosen ∈ s.head := hperm.mem_iff.mpr (by simp)
  have hmapnodup : (chosen.iter_index :: rest.map HeapItem.iter_index).Nodup := by
    have hm := (hperm.map HeapItem.iter_index).nodup hWF.2.1
    simpa using hm
  subst hwhat
  rcases hcase with ⟨hit, rfl⟩ | ⟨y, t, hit, rfl⟩
  · refine ⟨?_, ?_, ?_⟩
    · intro it hit'
      exact hInv it (hperm.mem_iff.mpr (by simp [hit']))
    · intro it hit'
      exact hbest it hit'
    · intro it hit'
      exact ⟨it, hperm.mem_iff.mpr (by simp [hit']), dirLe_refl _ _⟩
  · have hidx : chosen.iter_index < s.iters.length := hWF.1 chosen hchosen_mem
    have htail : s.iters.getD chosen.iter_index [] = y :: t := by
      rw [List.getD_eq_get?, hit]
      rfl
    have hchosen_inv := hInv chosen hchosen_mem
    rw [htail] at hchosen_inv
    have hchosen_le_y : dirLe s.dir chosen.what y := hchosen_inv.1 y (by simp)
    have hy_le_t : ∀ z ∈ t, dirLe s.dir y z :=
      (List.pairwise_cons.mp hchosen_inv.2).1
    have ht_pw : t.Pairwise (dirLe s.dir) := (List.pairwise_cons.mp hchosen_inv.2).2
    have hgete : (s.iters.set chosen.iter_index t).getD chosen.iter_index [] = t := by
      rw [List.getD_eq_get?, get?_set_self t hidx]
      rfl
    refine ⟨?_, ?_, ?_⟩
    · intro it hit'
      simp only [List.mem_append, List.mem_singleton] at hit'
      rcases hit' with h1 | h1
      · have hne : it.iter_index ≠ chosen.iter_index := by
          intro he
          apply (List.nodup_cons.mp hmapnodup).1
          rw [← he]
          exact List.mem_map.mpr ⟨it, h1, rfl⟩
        have hold := hInv it (hperm.mem_iff.mpr (by simp [h1]))
        have hsame : (s.iters.set chosen.iter_index t).getD it.iter_index []
            = s.iters.getD it.iter_index [] := by
          rw [List.getD_eq_get?, List.get?_set_ne _ _ (fun he => hne he.symm),
            ← List.getD_eq_get?]
        constructor
        · intro z hz
          exact hold.1 z (by rw [← hsame]; exact hz)
        · show ((s.iters.set chosen.iter_index t).getD it.iter_index []).Pairwise _
          rw [hsame]
          exact hold.2
      · subst h1
        constructor
        · intro z hz
          rw [hgete] at hz
          exact hy_le_t z hz
        · show ((s.iters.set chosen.iter_index t).getD
            (HeapItem.mk y chosen.iter_index).iter_index []).Pairwise _
          rw [hgete]
          exact ht_pw
    · intro it hit'
      simp only [List.mem_append, List.mem_singleton] at hit'
      rcases hit' with h1 | h1
      · exact hbest it h1
      · subst h1
        exact hchosen_le_y
    · intro it hit'
      simp only [List.mem_append, List.mem_singleton] at hit'
      rcases hit' with h1 | h1
      · exact ⟨it, hperm.mem_iff.mpr (by simp [h1]), dirLe_refl _ _⟩
      · subst h1
        exact ⟨chosen, hchosen_mem, hchosen_le_y⟩

theorem OrderedIterator.WF_flatten_nil {s : OrderedIterator α} (hWF : s.WF)
    (hhead : s.head = []) : s.iters.flatten = [] := by
  rw [List.flatten_eq_nil_iff]
  intro l hl
  rcases List.mem_iff_get?.mp hl with ⟨i, hi⟩
  have horph := hWF.2.2 i (by rw [hhead]; intro it hit; simp at hit)
  rw [List.getD_eq_get?, hi] at horph
  exact horph

theorem OrderedIterator.runFuel_spec [LinearOrder α] {n : Nat} :
    ∀ s : OrderedIterator α, s.totalSize ≤ n → s.WF →
      ∃ out, OrderedIterator.runFuel n s = some out ∧
        out.Perm (s.head.map HeapItem.what ++ s.iters.flatten) ∧
        (s.SortedInv → out.Pairwise (dirLe s.dir) ∧
          ∀ y ∈ out, ∃ it ∈ s.head, dirLe s.dir it.what y) := by
  induction n with
  | zero =>
    intro s hsize hWF
    have hhead : s.head = [] := by
      apply List.eq_nil_of_length_eq_zero
      simp only [OrderedIterator.totalSize] at hsize
      omega
    have hflat := OrderedIterator.WF_flatten_nil hWF hhead
    exact ⟨[], rfl, by simp [hhead, hflat], fun _ => ⟨by simp, by simp⟩⟩
  | succ n ih =>
    intro s hsize hWF
    cases hc : s.choose with
    | none => exact absurd hc (OrderedIterator.choose_ne_none hWF.1)
    | some p =>
      rcases p with ⟨o, s'⟩
      cases o with
      | none =>
        rcases OrderedIterator.choose_none_cases hc with ⟨hss, hhead⟩
        have hflat := OrderedIterator.WF_flatten_nil hWF hhead
        refine ⟨[], ?_, by simp [hhead, hflat], fun _ => ⟨by simp, by simp⟩⟩
        unfold OrderedIterator.runFuel
        rw [hc]
      | some x =>
        rcases OrderedIterator.choose_emit_conserve hc with ⟨hperm, hsize', hdir⟩
        have hWF' := OrderedIterator.choose_step_WF hWF hc
        rcases ih s' (by omega) hWF' with ⟨out', hrun', hperm', hsorted'⟩
        refine ⟨x :: out', ?_, ?_, ?_⟩
        · unfold OrderedIterator.runFuel
          rw [hc]
          dsimp only
          rw [hrun']
          rfl
        · exact (hperm'.cons x).trans hperm
        · intro hInv
          rcases OrderedIterator.choose_emit_sorted hWF hInv hc with
            ⟨hInv', hxle, hdom⟩
          rcases hsorted' hInv' with ⟨hpw', hdom'⟩
          rw [hdir] at hpw' hdom'
          constructor
          · rw [List.pairwise_cons]
            refine ⟨?_, hpw'⟩
            intro y hy
            rcases hdom' y hy with ⟨it, hit, hle⟩
            exact dirLe_trans (hxle it hit) hle
          · intro y hy
            rcases List.mem_cons.mp hy with rfl | hy'
            · rcases OrderedIterator.choose_emit_cases hc with
                ⟨chosen, rest, hp, hwhat, _⟩
              exact ⟨chosen, (popBest_perm hp).mem_iff.mpr (by simp),
                by rw [hwhat]; exact dirLe_refl _ _⟩
            · rcases hdom' y hy' with ⟨it, hit, hle⟩
              rcases hdom it hit with ⟨it0, hit0, hle0⟩
              exact ⟨it0, hit0, dirLe_trans hle0 hle⟩

theorem OrderedIterator.add_dir (s : OrderedIterator α) (l : List α) :
    (s.add l).dir = s.dir := by
  cases l <;> rfl

theorem mkOrdered_reachable [LinearOrder α] (d : MergeDir) (ls : List (List α)) :
    (mkOrdered d ls : OrderedIterator α).Reachable := by
  have gen : ∀ (ls : List (List α)) (s : OrderedIterator α), s.Reachable →
      (ls.foldl OrderedIterator.add s).Reachable := by
    intro ls
    induction ls with
    | nil => intro s hs; exact hs
    | cons l t ih =>
      intro s hs
      exact ih (s.add l) (OrderedIterator.Reachable.add s l hs)
  exact gen ls _ (OrderedIterator.Reachable.new d)

theorem mkOrdered_dir (d : MergeDir) (ls : List (List α)) :
    (mkOrdered d ls : OrderedIterator α).dir = d := by
  have gen : ∀ (ls : List (List α)) (s : OrderedIterator α),
      (ls.foldl OrderedIterator.add s).dir = s.dir := by
    intro ls
    induction ls with
    | nil => intro s; rfl
    | cons l t ih => intro s; rw [List.foldl_cons, ih, OrderedIterator.add_dir]
  exact gen ls _

theorem OrderedIterator.add_contents (s : OrderedIterator α) (l : List α) :
    ((s.add l).head.map HeapItem.what ++ (s.add l).iters.flatten).Perm
      ((s.head.map HeapItem.what ++ s.iters.flatten) ++ l) := by
  cases l with
  | nil => simp [OrderedIterator.add]
  | cons hd t =>
    have e1 : ((s.add (hd :: t)).head.map HeapItem.what ++
        (s.add (hd :: t)).iters.flatten)
        = s.head.map HeapItem.what ++ (hd :: (s.iters.flatten ++ t)) := by
      simp [OrderedIterator.add, List.flatten_append]
    have e2 : ((s.head.map HeapItem.what ++ s.iters.flatten) ++ (hd :: t))
        = s.head.map HeapItem.what ++ (s.iters.flatten ++ (hd :: t)) := by
      simp
    rw [e1, e2]
    exact List.Perm.append_left _ List.perm_middle.symm

theorem mkOrdered_contents (d : MergeDir) (ls : List (List α)) :
    ((mkOrdered d ls : OrderedIterator α).head.map HeapItem.what ++
      (mkOrdered d ls).iters.flatten).Perm ls.flatten := by
  have gen : ∀ (ls : List (List α)) (s : OrderedIterator α),
      ((ls.foldl OrderedIterator.add s).head.map HeapItem.what ++
        (ls.foldl OrderedIterator.add s).iters.flatten).Perm
        ((s.head.map HeapItem.what ++ s.iters.flatten) ++ ls.flatten) := by
    intro ls
    induction ls with
    | nil => intro s; simp
    | cons l t ih =>
      intro s
      rw [List.foldl_cons]
      refine (ih (s.add l)).trans ?_
      have h1 := (OrderedIterator.add_contents s l).append_right t.flatten
      refine h1.trans ?_
      simp [List.append_assoc]
  have hg := gen ls (OrderedIterator.new d)
  simpa [OrderedIterator.new] using hg

theorem OrderedIterator.add_SortedInv [LinearOrder α] {s : OrderedIterator α}
    {l : List α} (hWF : s.WF) (hInv : s.SortedInv)
    (hl : l.Pairwise (dirLe s.dir)) : (s.add l).SortedInv := by
  cases l with
  | nil => exact hInv
  | cons hd t =>
    intro it hit
    simp only [OrderedIterator.add, List.mem_append, List.mem_singleton] at hit
    rcases hit with h1 | h1
    · have hidx := hWF.1 it h1
      have hold := hInv it h1
      have hsame : ((s.iters ++ [t]).getD it.iter_index [])
          = s.iters.getD it.iter_index [] := by
        rw [List.getD_eq_get?, List.get?_append hidx, ← List.getD_eq_get?]
      constructor
      · show ∀ z ∈ (s.iters ++ [t]).getD it.iter_index [], dirLe s.dir it.what z
        rw [hsame]
        exact hold.1
      · show ((s.iters ++ [t]).getD it.iter_index []).Pairwise (dirLe s.dir)
        rw [hsame]
        exact hold.2
    · subst h1
      have hnew : ((s.iters ++ [t]).getD s.iters.length []) = t := by
        rw [List.getD_eq_get?, List.get?_concat_length]
        rfl
      rw [List.pairwise_cons] at hl
      constructor
      · show ∀ z ∈ (s.iters ++ [t]).getD s.iters.length [], dirLe s.dir hd z
        rw [hnew]
        exact hl.1
      · show ((s.iters ++ [t]).getD s.iters.length []).Pairwise (dirLe s.dir)
        rw [hnew]
        exact hl.2

theorem mkOrdered_SortedInv [LinearOrder α] (d : MergeDir) (ls : List (List α))
    (hs : ∀ l ∈ ls, l.Pairwise (dirLe d)) :
    (mkOrdered d ls : OrderedIterator α).SortedInv := by
  have gen : ∀ (ls : List (List α)) (s : OrderedIterator α), s.WF → s.SortedInv →
      (∀ l ∈ ls, l.Pairwise (dirLe s.dir)) →
      (ls.foldl OrderedIterator.add s).SortedInv := by
    intro ls
    induction ls with
    | nil => intro s _ hInv _; exact hInv
    | cons l t ih =>
      intro s hWF hInv hsort
      rw [List.foldl_cons]
      refine ih (s.add l) (OrderedIterator.add_WF hWF)
        (OrderedIterator.add_SortedInv hWF hInv (hsort l (by simp))) ?_
      intro l' hl'
      rw [OrderedIterator.add_dir]
      exact hsort l' (by simp [hl'])
  refine gen ls (OrderedIterator.new d)
    (OrderedIterator.reachable_WF (OrderedIterator.Reachable.new d)) ?_ hs
  intro it hit
  simp [OrderedIterator.new] at hit

theorem MultiIterator.foldl_empty_add :
    ∀ (ls : List (List α)) (s : MultiIterator α), (∀ l ∈ ls, l = []) →
      ls.foldl MultiIterator.add s = s := by
  intro ls
  induction ls with
  | nil => intro s _; rfl
  | cons l t ih =>
    intro s h
    rw [List.foldl_cons, h l (by simp)]
    exact ih s (fun l' hl' => h l' (by simp [hl']))

theorem OrderedIterator.foldl_add_empty :
    ∀ (ls : List (List α)) (s : OrderedIterator α), (∀ l ∈ ls, l = []) →
      ls.foldl OrderedIterator.add s = s := by
  intro ls
  induction ls with
  | nil => intro s _; rfl
  | cons l t ih =>
    intro s h
    rw [List.foldl_cons, h l (by simp)]
    exact ih s (fun l' hl' => h l' (by simp [hl']))

/-! ## The claims -/

/-- C1: heap merge sortedness under the precondition.  If every added
sequence is individually non-decreasing, the ascending (`new_min`) output is
globally non-decreasing; if every added sequence is non-increasing, the
descending (`new_max`) output is globally non-increasing (and no call
panics: the run produces `some` output). -/
theorem claim1_ordered_sorted [LinearOrder α] (ls ms : List (List α))
    (hls : ∀ l ∈ ls, l.Pairwise (· ≤ ·))
    (hms : ∀ l ∈ ms, l.Pairwise (fun x y : α => y ≤ x)) :
    (∃ out, (mkOrdered MergeDir.min ls : OrderedIterator α).run = some out ∧
      out.Pairwise (· ≤ ·)) ∧
    (∃ out, (mkOrdered MergeDir.max ms : OrderedIterator α).run = some out ∧
      out.Pairwise (fun x y : α => y ≤ x)) := by
  constructor
  · have hWF := OrderedIterator.reachable_WF (mkOrdered_reachable MergeDir.min ls)
    have hInv := mkOrdered_SortedInv MergeDir.min ls
      (fun l hl => (hls l hl).imp (fun h => h))
    rcases OrderedIterator.runFuel_spec _ (le_refl _) hWF with
      ⟨out, hrun, _, hsorted⟩
    rcases hsorted hInv with ⟨hpw, _⟩
    rw [mkOrdered_dir] at hpw
    exact ⟨out, hrun, hpw.imp (fun h => h)⟩
  · have hWF := OrderedIterator.reachable_WF (mkOrdered_reachable MergeDir.max ms)
    have hInv := mkOrdered_SortedInv MergeDir.max ms
      (fun l hl => (hms l hl).imp (fun h => h))
    rcases OrderedIterator.runFuel_spec _ (le_refl _) hWF with
      ⟨out, hrun, _, hsorted⟩
    rcases hsorted hInv with ⟨hpw, _⟩
    rw [mkOrdered_dir] at hpw
    exact ⟨out, hrun, hpw.imp (fun h => h)⟩

theorem claim1_witness :
    (∃ out, (mkOrdered MergeDir.min [[1, 3], [2, 4]] : OrderedIterator Nat).run
      = some out ∧ out.Pairwise (· ≤ ·)) ∧
    (∃ out, (mkOrdered MergeDir.max [[5, 2], [9]] : OrderedIterator Nat).run
      = some out ∧ out.Pairwise (fun x y : Nat => y ≤ x)) :=
  claim1_ordered_sorted [[1, 3], [2, 4]] [[5, 2], [9]] (by decide) (by decide)

/-- C2: heap merge element-count invariant.  With no sortedness assumption at
all on the added sequences, the run never panics, emits exactly the sum of
the input lengths, and the emitted elements are a permutation of (i.e. the
same multiset as) the concatenation of all inputs. -/
theorem claim2_ordered_conservation [LinearOrder α] (d : MergeDir)
    (ls : List (List α)) :
    ∃ out, (mkOrdered d ls : OrderedIterator α).run = some out ∧
      out.length = (ls.map List.length).sum ∧ out.Perm ls.flatten := by
  have hWF := OrderedIterator.reachable_WF (mkOrdered_reachable d ls)
  rcases OrderedIterator.runFuel_spec _ (le_refl _) hWF with ⟨out, hrun, hperm, _⟩
  have hperm2 := hperm.trans (mkOrdered_contents d ls)
  exact ⟨out, hrun, by rw [hperm2.length_eq, List.length_flatten], hperm2⟩

/-- C3: sequential merge emits exactly the concatenation of the added
sequences, in order. -/
theorem claim3_seq_concat (ls : List (List α)) :
    (mkSeq ls : SeqIter α).run = ls.flatten := by
  rw [SeqIter.run_eq_remaining]
  rcases mkSeq_spec ls with ⟨h1, h2⟩
  unfold SeqIter.remaining
  rw [h1, h2]
  simp

/-- C4 counterexample: with the selection function that always returns the
index of the minimum current head (`minIdx`, a `MinSel` function by
`minIdx_minSel`), the single unsorted input `[2, 1]` is emitted as `[2, 1]`
(every element exactly once) but NOT in non-decreasing order — the claim
omits the precondition that the added sequences be individually sorted. -/
theorem claim4_counterexample :
    (mkMulti (fun l : List Nat => minIdx l) [[2, 1]]).run = some [2, 1] ∧
    ¬ ([2, 1] : List Nat).Pairwise (· ≤ ·) := by
  constructor
  · decide
  · decide

/-- C4 (amended): when the selection function always returns the index of the
minimum current head AND every added sequence is individually non-decreasing,
the full output contains every element of every added sequence exactly once,
in non-decreasing order. -/
theorem claim4_amended_sorted_merge [LinearOrder α] (f : List α → Option Nat)
    (hf : MinSel f) (ls : List (List α))
    (hs : ∀ l ∈ ls, l.Pairwise (· ≤ ·)) :
    ∃ out, (mkMulti f ls).run = some out ∧ out.Pairwise (· ≤ ·) ∧
      out.Perm ls.flatten := by
  have hlen := MultiIterator.reachable_len (mkMulti_reachable f ls)
  have hf' : MinSel (mkMulti f ls).choose_function := by
    rw [mkMulti_fun]
    exact hf
  have hInv := mkMulti_SortedInv f ls hs
  rcases MultiIterator.run_spec _ (le_refl _) hlen hf' hInv with
    ⟨out, hrun, hperm, hpw, _⟩
  exact ⟨out, hrun, hpw, hperm.trans (mkMulti_contents f ls)⟩

theorem claim4_witness :
    ∃ out, (mkMulti (fun l : List Nat => minIdx l) [[1, 3], [2]]).run = some out ∧
      out.Pairwise (· ≤ ·) ∧ out.Perm ([[1, 3], [2]] : List (List Nat)).flatten :=
  claim4_amended_sorted_merge _ minIdx_minSel [[1, 3], [2]] (by decide)

/-- C5: predicate merge early termination.  Whenever the selection function
returns "none" or an out-of-range index on the current heads, that `next`
call emits nothing, returns the exhaustion signal with the state unchanged,
and consequently every further call also emits nothing (so if this happens on
the k-th call, exactly the k-1 previously emitted elements are ever
produced), regardless of remaining live sequences. -/
theorem claim5_multi_veto (s : MultiIterator α)
    (hveto : s.choose_function s.head = none ∨
      ∃ i, s.choose_function s.head = some i ∧ s.head.length ≤ i) :
    s.choose = some (none, s) ∧ ∀ n, MultiIterator.runFuel n s = some [] := by
  have hch : s.choose = some (none, s) := by
    unfold MultiIterator.choose
    split
    · rfl
    next h0 =>
      rcases hveto with hnone | ⟨i, hsome, hge⟩
      · rw [hnone]
      · rw [hsome]
        dsimp only
        rw [if_pos (show s.head.length - 1 < i by omega)]
  refine ⟨hch, ?_⟩
  intro n
  cases n with
  | zero => rfl
  | succ n =>
    unfold MultiIterator.runFuel
    rw [hch]

theorem claim5_witness :
    (MultiIterator.mk [5] [[6]] (fun _ : List Nat => none)).choose
      = some (none, MultiIterator.mk [5] [[6]] (fun _ : List Nat => none)) ∧
    ∀ n, MultiIterator.runFuel n
      (MultiIterator.mk [5] [[6]] (fun _ : List Nat => none)) = some [] :=
  claim5_multi_veto _ (Or.inl rfl)

/-- C6: no `add` or `next` panics.  `SeqIter.next` is total by construction
(its only `unwrap` is guarded by the `is_none` check immediately before it,
so the embedding needs no panic case at all), and for the other two
combinators, in every reachable state `choose` never hits its panic case
(`none`): the internal `unwrap`s, index accesses, and the `len - 1`
subtraction (guarded by the `len == 0` early return) always succeed. -/
theorem claim6_no_panic [LinearOrder α] :
    (∀ s : SeqIter α, ∃ r, s.next = r) ∧
    (∀ s : MultiIterator α, s.Reachable → s.choose ≠ none) ∧
    (∀ s : OrderedIterator α, s.Reachable → s.choose ≠ none) :=
  ⟨fun s => ⟨s.next, rfl⟩,
   fun _ hs => MultiIterator.choose_no_panic (MultiIterator.reachable_len hs),
   fun _ hs => OrderedIterator.choose_ne_none (OrderedIterator.reachable_WF hs).1⟩

theorem claim6_witness :
    ((MultiIterator.new (fun _ : List Nat => none)).add [1, 2]).choose ≠ none ∧
    (((OrderedIterator.new MergeDir.min).add [3, 1] :
      OrderedIterator Nat)).choose ≠ none :=
  ⟨claim6_no_panic.2.1 _ (MultiIterator.Reachable.add _ _
      (MultiIterator.Reachable.new _)),
   claim6_no_panic.2.2 _ (OrderedIterator.Reachable.add _ _
      (OrderedIterator.Reachable.new _))⟩

/-- C7: heap invariant in every reachable state of the ordered merge: the
priority structure holds at most one entry per sequence slot (no duplicated
`iter_index`), every stored index is a valid index into the iterator list,
and every slot without an entry holds an exhausted sequence — so there is
exactly one entry per live sequence.  (The entry's element is the sequence's
current head slot by construction: the pulled-but-unemitted element is stored
nowhere but in the heap entry, in the code as in the model.) -/
theorem claim7_heap_invariant [LinearOrder α] (s : OrderedIterator α)
    (h : s.Reachable) :
    (s.head.map HeapItem.iter_index).Nodup ∧
    (∀ it ∈ s.head, it.iter_index < s.iters.length) ∧
    (∀ i : Nat, (∀ it ∈ s.head, it.iter_index ≠ i) → s.iters.getD i [] = []) := by
  rcases OrderedIterator.reachable_WF h with ⟨h1, h2, h3⟩
  exact ⟨h2, h1, h3⟩

theorem claim7_witness :
    (((((OrderedIterator.new MergeDir.min).add [1, 2]).add [3] :
      OrderedIterator Nat)).head.map HeapItem.iter_index).Nodup ∧
    (∀ it ∈ ((((OrderedIterator.new MergeDir.min).add [1, 2]).add [3] :
      OrderedIterator Nat)).head,
      it.iter_index < ((((OrderedIterator.new MergeDir.min).add [1, 2]).add [3] :
        OrderedIterator Nat)).iters.length) ∧
    (∀ i : Nat, (∀ it ∈ ((((OrderedIterator.new MergeDir.min).add [1, 2]).add [3] :
      OrderedIterator Nat)).head, it.iter_index ≠ i) →
      ((((OrderedIterator.new MergeDir.min).add [1, 2]).add [3] :
        OrderedIterator Nat)).iters.getD i [] = []) :=
  claim7_heap_invariant _ (OrderedIterator.Reachable.add _ _
    (OrderedIterator.Reachable.add _ _ (OrderedIterator.Reachable.new _)))

/-- C8: empty-input idempotence.  With zero registered sequences or only
empty sequences registered, the first `next` of each combinator immediately
reports exhaustion (and, for the predicate and heap merges, leaves the state
unchanged). -/
theorem claim8_empty_exhaustion [LinearOrder α] (ls : List (List α))
    (h : ∀ l ∈ ls, l = []) (f : List α → Option Nat) (d : MergeDir) :
    ((mkSeq ls : SeqIter α).next).1 = none ∧
    (mkMulti f ls).choose = some (none, mkMulti f ls) ∧
    (mkOrdered d ls : OrderedIterator α).choose = some (none, mkOrdered d ls) := by
  refine ⟨?_, ?_, ?_⟩
  · apply SeqIter.next_none
    rcases mkSeq_spec ls with ⟨h1, h2⟩
    unfold SeqIter.remaining
    rw [h1, h2]
    simpa [List.flatten_eq_nil_iff] using h
  · have hm : mkMulti f ls = MultiIterator.new f :=
      MultiIterator.foldl_empty_add ls _ h
    rw [hm]
    rfl
  · have hm : mkOrdered d ls = (OrderedIterator.new d : OrderedIterator α) :=
      OrderedIterator.foldl_add_empty ls _ h
    rw [hm]
    rfl

theorem claim8_witness :
    ((mkSeq [[], []] : SeqIter Nat).next).1 = none ∧
    (mkMulti (fun l : List Nat => minIdx l) [[], []]).choose
      = some (none, mkMulti (fun l : List Nat => minIdx l) [[], []]) ∧
    (mkOrdered MergeDir.min [[], []] : OrderedIterator Nat).choose
      = some (none, mkOrdered MergeDir.min [[], []]) :=
  claim8_empty_exhaustion [[], []] (by decide) _ MergeDir.min

/-- C9: sequential merge, add after partial consumption.  In any reachable
state (in particular after elements have already been pulled — pulled output
is a pure value and cannot be affected), adding a new sequence makes the
remaining output equal to the remaining output without the add followed by
the new sequence's elements: the new sequence is reached only after all
earlier unexhausted sequences are exhausted. -/
theorem claim9_seq_add_after (s : SeqIter α) (h : s.Reachable) (t : List α) :
    (s.add t).run = s.run ++ t := by
  rw [SeqIter.run_eq_remaining, SeqIter.run_eq_remaining]
  have hle := SeqIter.reachable_ptr_le h
  unfold SeqIter.remaining SeqIter.add
  simp only
  rw [List.drop_append_eq_append_drop]
  rw [show s.ptr - s.iters.length = 0 by omega]
  simp

theorem claim9_witness :
    ((((SeqIter.new.add [1, 2] : SeqIter Nat).next.2).add [7, 8])).run
      = (((SeqIter.new.add [1, 2] : SeqIter Nat)).next.2).run ++ [7, 8] :=
  claim9_seq_add_after _
    (SeqIter.Reachable.next _ (SeqIter.Reachable.add _ _ SeqIter.Reachable.new))
    [7, 8]

/-- C10: determinism.  Each combinator's full output is a pure function of
the added sequences (for the predicate merge, together with its fixed
selection function; for the heap merge, its fixed direction — in the model
the heap's tie-breaking is a fixed function of the inputs): equal inputs give
identical outputs. -/
theorem claim10_deterministic [LinearOrder α] (f : List α → Option Nat)
    (d : MergeDir) (ls ms : List (List α)) (h : ls = ms) :
    (mkSeq ls : SeqIter α).run = (mkSeq ms).run ∧
    (mkMulti f ls).run = (mkMulti f ms).run ∧
    (mkOrdered d ls : OrderedIterator α).run = (mkOrdered d ms).run := by
  subst h
  exact ⟨rfl, rfl, rfl⟩

theorem claim10_witness :
    (mkSeq [[1, 2]] : SeqIter Nat).run = (mkSeq [[1, 2]]).run ∧
    (mkMulti (fun l : List Nat => minIdx l) [[1, 2]]).run
      = (mkMulti (fun l : List Nat => minIdx l) [[1, 2]]).run ∧
    (mkOrdered MergeDir.min [[1, 2]] : OrderedIterator Nat).run
      = (mkOrdered MergeDir.min [[1, 2]]).run :=
  claim10_deterministic _ MergeDir.min [[1, 2]] [[1, 2]] rfl
